import Mathlib

/-! Verification development for the make-profiler core (parser.py): the
line tokenizer with continuation splicing, the target-record parser built
on one regular expression, and the dependency/influence graph builder with
its recursive indirect-influence computation. Lines and string values are
modelled as lists of characters; the fallible tokenizer and parser return
Except values; the unmemoized closure recursion is modelled with an
explicit stack-depth bound, where none for every bound means the source
recursion never terminates. -/

namespace MakeProfiler

/-- Lines and string values are modelled as lists of characters. -/
abbrev Str := List Char

/-- Convert a string literal to the character-list representation. -/
def str (s : String) : Str := s.data

/-- Whitespace test for the characters trimmed by the no-argument strip
(ASCII whitespace). -/
def isWs (c : Char) : Bool := c == ' ' || c == '\t' || c == '\n' || c == '\r'

/-- Drop leading whitespace. -/
def trimL (s : Str) : Str := s.dropWhile isWs

/-- Drop trailing whitespace. -/
def trimR (s : Str) : Str := (s.reverse.dropWhile isWs).reverse

/-- Model of the no-argument strip of a line. -/
def pyStrip (s : Str) : Str := trimR (trimL s)

/-- Model of rstrip applied with the backslash character: removes every
trailing backslash. -/
def rstripBS (s : Str) : Str := (s.reverse.dropWhile (fun c => c == '\\')).reverse

/-- One recorded continuation piece: the stripped line with trailing
backslashes removed and then stripped again. -/
def piece (s : Str) : Str := pyStrip (rstripBS s)

/-- Model of strip with an explicit character set, applied at both ends. -/
def stripSet (cs : List Char) (s : Str) : Str :=
  ((s.dropWhile (cs.contains ·)).reverse.dropWhile (cs.contains ·)).reverse

/-- Space-join of the recorded continuation pieces. -/
def joinSp : List Str → Str
  | [] => []
  | [x] => x
  | x :: xs => x ++ ' ' :: joinSp xs

/-- Token kinds of the tokenizer, mirroring the Tokens enumeration. -/
inductive Tok
  | target
  | command
  | expression
deriving DecidableEq

/-- Failures of the tokenizer loop: StopIteration escaping from the inner
next call at end of input during continuation, and IndexError from
indexing the last character of an empty stripped continuation line. -/
inductive TokErr
  | stopIteration
  | indexError
deriving DecidableEq

deriving instance DecidableEq for Except

/-- Characters stripped from expression lines: space, semicolon, tab. -/
def exprStripChars : List Char := [' ', ';', '\t']

/-- The tokenizer loop. The first argument is none in the ordinary
per-line state, and is some (kind, pieces) while glue_multiline is
consuming continuation lines for a token of that kind. -/
def tokGo : Option (Tok × List Str) → List Str → Except TokErr (List (Tok × Str))
  | none, [] => .ok []
  | some _, [] => .error .stopIteration
  | some (t, acc), line :: rest =>
    if pyStrip line = [] then .error .indexError
    else if (pyStrip line).getLast? = some '\\' then
      tokGo (some (t, acc ++ [piece (pyStrip line)])) rest
    else
      (tokGo none rest).map (fun ts => (t, joinSp (acc ++ [piece (pyStrip line)])) :: ts)
  | none, line :: rest =>
    if pyStrip line = [] then tokGo none rest
    else if (pyStrip line).head? = some '#' ∧ line.take 2 ≠ ['#', '#'] then tokGo none rest
    else if line.head? = some '\t' then
      if (pyStrip line).getLast? = some '\\' then
        tokGo (some (.command, [piece (pyStrip line)])) rest
      else (tokGo none rest).map (fun ts => (Tok.command, joinSp [piece (pyStrip line)]) :: ts)
    else if ':' ∈ line ∧ '=' ∉ line then
      if (pyStrip line).getLast? = some '\\' then
        tokGo (some (.target, [piece (pyStrip line)])) rest
      else (tokGo none rest).map (fun ts => (Tok.target, joinSp [piece (pyStrip line)]) :: ts)
    else (tokGo none rest).map (fun ts => (Tok.expression, stripSet exprStripChars line) :: ts)

/-- The tokenizer: classify each line top to bottom with first match
winning, splicing continuation lines for command and target tokens. -/
def tokenize (lines : List Str) : Except TokErr (List (Tok × Str)) := tokGo none lines

/-- The four capture groups of the target-line regular expression. -/
structure MTGroups where
  name : Str
  deps : Option Str
  odeps : Option Str
  doc : Option Str
deriving DecidableEq

/-- Split a character list at its first colon. -/
def findColonSplit : Str → Option (Str × Str)
  | [] => none
  | c :: cs =>
    if c = ':' then some ([], cs)
    else (findColonSplit cs).map (fun p => (c :: p.1, p.2))

/-- The lazy one-or-more group followed by a colon: the shortest nonempty
prefix that is followed by a colon, hence a split at the first colon lying
at index at least one. -/
def splitNameColon : Str → Option (Str × Str)
  | [] => none
  | c :: cs => (findColonSplit cs).map (fun p => (c :: p.1, p.2))

/-- An optional single whitespace character. -/
def consumeOneWs : Str → Str
  | [] => []
  | c :: cs => if isWs c then cs else c :: cs

/-- An optional single occurrence of a given character. -/
def consumeOneChar (x : Char) : Str → Str
  | [] => []
  | c :: cs => if c = x then cs else c :: cs

/-- A greedy optional character-class group: the maximal nonempty prefix
of characters satisfying p, or none when that prefix is empty. -/
def takeGroup (p : Char → Bool) (s : Str) : Option Str × Str :=
  match s.takeWhile p with
  | [] => (none, s)
  | w => (some w, s.dropWhile p)

/-- The optional docstring group: two hash marks followed by at least one
character, captured to the end of the line. -/
def matchDoc : Str → Option Str
  | '#' :: '#' :: c :: cs => some ('#' :: '#' :: c :: cs)
  | _ => none

/-- Model of the anchored match of the target-line regular expression in
verbose mode: the lazy name group up to a colon, then optional single
whitespace, an optional greedy run without pipe or hash, optional
whitespace, an optional pipe, optional whitespace, an optional greedy run
without hash, two optional whitespace, and an optional docstring group.
Every atom after the colon is optional and trailing input may remain
unmatched, so nothing after the name group can fail and matching is a
single greedy left-to-right pass. -/
def matchTarget (s : Str) : Option MTGroups :=
  match splitNameColon s with
  | none => none
  | some (nm, r0) =>
    let r1 := consumeOneWs r0
    let g2p := takeGroup (fun c => !(c == '|') && !(c == '#')) r1
    let r3 := consumeOneWs g2p.2
    let r4 := consumeOneChar '|' r3
    let r5 := consumeOneWs r4
    let g3p := takeGroup (fun c => !(c == '#')) r5
    let r7 := consumeOneWs (consumeOneWs g3p.2)
    some ⟨nm, g2p.1, g3p.1, matchDoc r7⟩

/-- Whitespace splitting with the current word accumulated reversed. -/
def splitWsGo (cur : Str) : Str → List Str
  | [] => if cur = [] then [] else [cur.reverse]
  | c :: cs =>
    if isWs c then
      if cur = [] then splitWsGo [] cs else cur.reverse :: splitWsGo [] cs
    else splitWsGo (c :: cur) cs

/-- Model of the no-argument split: whitespace-separated words. -/
def splitWs (s : Str) : List Str := splitWsGo [] s

/-- Lexicographic sorting of name lists, the model of sorted. -/
def sortStr (l : List Str) : List Str := l.insertionSort (· ≤ ·)

/-- One parsed target record: the dictionary built by parse_target. -/
structure TargetRec where
  name : Str
  deps : List Str
  orderDeps : List Str
  docs : Str
  body : List (Tok × Str)
deriving DecidableEq

/-- Strip leading and trailing hash marks. -/
def stripHash (s : Str) : Str := stripSet ['#'] s

/-- Build the record from the regex groups and the collected body. -/
def mkRec (g : MTGroups) (body : List (Tok × Str)) : TargetRec :=
  { name := pyStrip g.name
    deps :=
      match g.deps with
      | some d => sortStr (splitWs (pyStrip d))
      | none => []
    orderDeps :=
      match g.odeps with
      | some d => sortStr (splitWs (pyStrip d))
      | none => []
    docs :=
      match g.doc with
      | some d => pyStrip (stripHash (pyStrip d))
      | none => []
    body := body }

/-- A node of the AST: a parsed target record, or a token appended
unchanged (expression tokens, and command tokens not following a target). -/
inductive AstNode
  | targetNode (r : TargetRec)
  | rawNode (t : Tok) (v : Str)
deriving DecidableEq

/-- Parse failure: the regex match on a target line returned no match, so
the attribute access on the None result raises. The exception value
carries no information about the offending line. -/
inductive PErr
  | attributeError
deriving DecidableEq

/-- Flush an open target record, with its collected body, into a node
list. -/
def flushOpen : Option (MTGroups × List (Tok × Str)) → List AstNode
  | none => []
  | some (g, body) => [.targetNode (mkRec g body)]

/-- The parser loop: a target token opens a record that greedily collects
the immediately following command tokens as its body; any other token is
appended unchanged; a non-command token closes the open record. -/
def parseGo (op : Option (MTGroups × List (Tok × Str))) :
    List (Tok × Str) → Except PErr (List AstNode)
  | [] => .ok (flushOpen op)
  | (t, v) :: rest =>
    if t = Tok.command then
      match op with
      | some (g, body) => parseGo (some (g, body ++ [(t, v)])) rest
      | none => (parseGo none rest).map (fun ns => .rawNode t v :: ns)
    else if t = Tok.target then
      match matchTarget v with
      | none => .error .attributeError
      | some g2 => (parseGo (some (g2, [])) rest).map (fun ns => flushOpen op ++ ns)
    else (parseGo none rest).map (fun ns => flushOpen op ++ (.rawNode t v :: ns))

/-- Parse a token list into the AST. -/
def parseAst (toks : List (Tok × Str)) : Except PErr (List AstNode) := parseGo none toks

/-- Extraction of a single target line outside the parser loop; the body
is empty. -/
def parseTargetLine (s : Str) : Option TargetRec := (matchTarget s).map (fun g => mkRec g [])

/-- The name of the pseudo-target excluded from the graph. -/
def phonyName : Str := str ".PHONY"

/-- Association-list lookup, the model of dictionary lookup. -/
def alookup {β : Type} : List (Str × β) → Str → Option β
  | [], _ => none
  | (k, v) :: tl, x => if k = x then some v else alookup tl x

/-- Influence maps: insertion-ordered association lists from names to
duplicate-free name lists standing for sets. -/
abbrev AList := List (Str × List Str)

/-- Read a set entry, defaulting to the empty set. -/
def getD (m : AList) (k : Str) : List Str := (alookup m k).getD []

/-- Create an empty entry for a key if absent: a bare defaultdict access. -/
def touch (m : AList) (k : Str) : AList :=
  if (alookup m k).isSome then m else m ++ [(k, [])]

/-- Add an element to a set list if not already present. -/
def insSet (v : Str) (s : List Str) : List Str := if v ∈ s then s else s ++ [v]

/-- Add a value to the set stored under a key, creating the entry if
absent. -/
def addTo : AList → Str → Str → AList
  | [], k, v => [(k, [v])]
  | (k1, s) :: tl, k, v =>
    if k1 = k then (k1, insSet v s) :: tl else (k1, s) :: addTo tl k v

/-- Pour a list of values into the set stored under a key; the bare access
creates the entry even when the poured list is empty. -/
def unionInto (m : AList) (k : Str) (vs : List Str) : AList :=
  vs.foldl (fun m2 v => addTo m2 k v) (touch m k)

/-- The dependencies dictionary: required and order-only lists per name. -/
abbrev DepsMap := List (Str × (List Str × List Str))

/-- Dictionary assignment: replace the value under an existing key in
place, otherwise append the new entry. -/
def setD : DepsMap → Str → List Str × List Str → DepsMap
  | [], k, v => [(k, v)]
  | (k1, v1) :: tl, k, v =>
    if k1 = k then (k1, v) :: tl else (k1, v1) :: setD tl k v

/-- The three maps built by the first loop of get_dependencies_influences. -/
structure Graph1 where
  deps : DepsMap
  infl : AList
  oo : List Str
deriving DecidableEq

/-- One step of the first loop: skip non-target nodes and the phony
pseudo-target; otherwise record the dependency pair, create the influence
entry for the target, add a reverse edge for every required dependency,
create bare entries for order-only dependencies, and collect them into the
order-only set. -/
def step1 (g : Graph1) : AstNode → Graph1
  | .rawNode _ _ => g
  | .targetNode r =>
    if r.name = phonyName then g
    else
      { deps := setD g.deps r.name (r.deps, r.orderDeps)
        infl := r.orderDeps.foldl touch
          (r.deps.foldl (fun m k => addTo m k r.name) (touch g.infl r.name))
        oo := r.orderDeps.foldl (fun s k => insSet k s) g.oo }

/-- The first loop over the AST. -/
def buildMaps (ast : List AstNode) : Graph1 := ast.foldl step1 ⟨[], [], []⟩

/-- Fuel-bounded model of the unmemoized recursion
recurse_indirect_influences. The list holds the pending sibling calls of
one level, processed left to right; each call consumes one unit of fuel
(one stack frame), updates the indirect set of the origin with the
influences of its argument, and recurses into those influences with the
remaining fuel. The value none means the recursion exceeds every stack of
the given depth. -/
def recLevel (infl : AList) (orig : Str) : Nat → List Str → AList → Option AList
  | 0, l, ind =>
    match l with
    | [] => some ind
    | _ :: _ => none
  | fuel + 1, l, ind =>
    l.foldl
      (fun acc t =>
        match acc with
        | none => none
        | some ind2 => recLevel infl orig fuel (getD infl t) (unionInto ind2 orig (getD infl t)))
      (some ind)

/-- The outer closure loop over the items of the influences map. -/
def closureGo (infl : AList) (fuel : Nat) : List (Str × List Str) → AList → Option AList
  | [], ind => some ind
  | (o, ts) :: rest, ind =>
    match recLevel infl o fuel ts ind with
    | none => none
    | some ind2 => closureGo infl fuel rest ind2

/-- The computation of indirect_influences, bounded by a stack depth. -/
def closure (infl : AList) (fuel : Nat) : Option AList := closureGo infl fuel infl []

/-- The full result of get_dependencies_influences. -/
structure Graph where
  deps : DepsMap
  infl : AList
  oo : List Str
  ind : AList
deriving DecidableEq

/-- Model of get_dependencies_influences: the first loop, then the
closure; none when the closure recursion exceeds the given stack depth at
some origin. -/
def getDepsInfl (ast : List AstNode) (fuel : Nat) : Option Graph :=
  (closure (buildMaps ast).infl fuel).map
    (fun ind => ⟨(buildMaps ast).deps, (buildMaps ast).infl, (buildMaps ast).oo, ind⟩)

/-- Pipeline errors. -/
inductive Err
  | tok (e : TokErr)
  | par (e : PErr)
deriving DecidableEq

/-- Tokenize then parse. -/
def parseLines (lines : List Str) : Except Err (List AstNode) :=
  match tokenize lines with
  | .error e => .error (.tok e)
  | .ok toks =>
    match parseAst toks with
    | .error e => .error (.par e)
    | .ok ast => .ok ast

/-- The whole pipeline: tokenize, parse, and build the graph with the
given closure stack depth. -/
def analyze (lines : List Str) (fuel : Nat) : Except Err (Option Graph) :=
  match parseLines lines with
  | .error e => .error e
  | .ok ast => .ok (getDepsInfl ast fuel)

/-- The cyclic two-target input. -/
def cyclicLines : List Str := [str "A: B", str "B: A"]

/-- The influences map the first loop builds from the cyclic input. -/
def cycInfl : AList := [(str "A", [str "B"]), (str "B", [str "A"])]

/-- The dependencies map the first loop builds from the cyclic input. -/
def cycDeps : DepsMap := [(str "A", ([str "B"], [])), (str "B", ([str "A"], []))]

/-- The three-target chain input. -/
def chainLines : List Str := [str "A: B", str "B: C", str "C:"]

/-- View of the chain-input analysis: the influence sets of C and B and
the indirect-influence set of C. -/
def chainView : Option (List Str × List Str × List Str) :=
  match analyze chainLines 10 with
  | .ok (some g) => some (getD g.infl (str "C"), getD g.infl (str "B"), getD g.ind (str "C"))
  | _ => none

/-- The concrete target line of the extraction example. -/
def c3Line : Str := str "build: a c b | o2 o1 ## builds it"

/-- A target line naming the same dependency before and after the pipe. -/
def c5Line : Str := str "a: b | b"

/-- The required-dependency name tokens as written on the matched line. -/
def reqTokens (g : MTGroups) : List Str :=
  match g.deps with
  | some d => splitWs (pyStrip d)
  | none => []

/-- The order-only name tokens as written on the matched line. -/
def ooTokens (g : MTGroups) : List Str :=
  match g.odeps with
  | some d => splitWs (pyStrip d)
  | none => []

/-- Nodes kept by the graph builder: everything except the phony target. -/
def keepNode : AstNode → Bool
  | .targetNode r => !(r.name == phonyName)
  | .rawNode _ _ => true

/-- Provenance of a reverse influence edge: some non-phony target record
named x in the AST lists d among its required dependencies. -/
def inflSpec (ast : List AstNode) (d x : Str) : Prop :=
  ∃ r, AstNode.targetNode r ∈ ast ∧ r.name ≠ phonyName ∧ r.name = x ∧ d ∈ r.deps

/-- Provenance of an influences-map entry: the name is a non-phony target
name, or a required or order-only dependency of a non-phony target. -/
def keySpec (ast : List AstNode) (d : Str) : Prop :=
  ∃ r, AstNode.targetNode r ∈ ast ∧ r.name ≠ phonyName ∧
    (r.name = d ∨ d ∈ r.deps ∨ d ∈ r.orderDeps)

/-- Provenance of an order-only set member: some non-phony target record
in the AST lists the name among its order-only dependencies. -/
def ooSpec (ast : List AstNode) (x : Str) : Prop :=
  ∃ r, AstNode.targetNode r ∈ ast ∧ r.name ≠ phonyName ∧ x ∈ r.orderDeps

/-- A one-record AST used to instantiate the graph-builder theorems. -/
def c7Ast : List AstNode :=
  [AstNode.targetNode ⟨str "t", [str "b"], [str "c"], [], []⟩]

/-- Unfolding equation of the tokenizer loop in the ordinary state. -/
theorem tokGo_none_cons (line : Str) (rest : List Str) :
    tokGo none (line :: rest) =
      (if pyStrip line = [] then tokGo none rest
       else if (pyStrip line).head? = some '#' ∧ line.take 2 ≠ ['#', '#'] then tokGo none rest
       else if line.head? = some '\t' then
         (if (pyStrip line).getLast? = some '\\' then
            tokGo (some (Tok.command, [piece (pyStrip line)])) rest
          else (tokGo none rest).map (fun ts => (Tok.command, joinSp [piece (pyStrip line)]) :: ts))
       else if ':' ∈ line ∧ '=' ∉ line then
         (if (pyStrip line).getLast? = some '\\' then
            tokGo (some (Tok.target, [piece (pyStrip line)])) rest
          else (tokGo none rest).map (fun ts => (Tok.target, joinSp [piece (pyStrip line)]) :: ts))
       else (tokGo none rest).map (fun ts => (Tok.expression, stripSet exprStripChars line) :: ts)) :=
  rfl

/-- Unfolding equation of the tokenizer loop in the continuation state. -/
theorem tokGo_glue_cons (t : Tok) (acc : List Str) (line : Str) (rest : List Str) :
    tokGo (some (t, acc)) (line :: rest) =
      (if pyStrip line = [] then .error .indexError
       else if (pyStrip line).getLast? = some '\\' then
         tokGo (some (t, acc ++ [piece (pyStrip line)])) rest
       else (tokGo none rest).map (fun ts => (t, joinSp (acc ++ [piece (pyStrip line)])) :: ts)) :=
  rfl

/-- Dropping a prefix by a predicate is idempotent. -/
theorem dropWhile_idem (p : Char → Bool) (l : Str) :
    (l.dropWhile p).dropWhile p = l.dropWhile p := by
  induction l with
  | nil => rfl
  | cons c cs ih =>
    by_cases h : p c
    · simp [List.dropWhile_cons, h, ih]
    · simp [List.dropWhile_cons, h]

/-- The head surviving a dropWhile does not satisfy the predicate. -/
theorem head_dropWhile_false (p : Char → Bool) (l : Str) :
    ∀ c, (l.dropWhile p).head? = some c → p c = false := by
  induction l with
  | nil => intro c hc; cases hc
  | cons a as ih =>
    intro c hc
    by_cases h : p a
    · rw [List.dropWhile_cons, if_pos h] at hc
      exact ih c hc
    · rw [List.dropWhile_cons, if_neg h] at hc
      have ha : a = c := by
        have : some a = some c := hc
        injection this
      rw [← ha]
      exact Bool.not_eq_true (p a) ▸ h

/-- A list whose head is not rejected by the predicate is unchanged. -/
theorem trimL_eq_self {s : Str} (h : ∀ c, s.head? = some c → isWs c = false) :
    trimL s = s := by
  cases s with
  | nil => rfl
  | cons c cs => simp [trimL, List.dropWhile_cons, h c rfl]

/-- Left trimming is idempotent. -/
theorem trimL_idem (s : Str) : trimL (trimL s) = trimL s :=
  dropWhile_idem isWs s

/-- Right trimming is idempotent. -/
theorem trimR_idem (s : Str) : trimR (trimR s) = trimR s := by
  simp [trimR, List.reverse_reverse, dropWhile_idem]

/-- The right trim of a list is one of its prefixes. -/
theorem trimR_prefix (s : Str) : ∃ t, trimR s ++ t = s := by
  obtain ⟨t, ht⟩ := List.dropWhile_suffix (l := s.reverse) isWs
  refine ⟨t.reverse, ?_⟩
  rw [trimR, ← List.reverse_append, ht, List.reverse_reverse]

/-- A nonempty right trim starts with the original head. -/
theorem head_trimR_of_ne_nil {s : Str} (h : trimR s ≠ []) : (trimR s).head? = s.head? := by
  obtain ⟨t, ht⟩ := trimR_prefix s
  cases hh : trimR s with
  | nil => exact absurd hh h
  | cons c cs => rw [← ht, hh]; rfl

/-- Stripping both ends is idempotent. -/
theorem pyStrip_idem (s : Str) : pyStrip (pyStrip s) = pyStrip s := by
  show trimR (trimL (trimR (trimL s))) = trimR (trimL s)
  have h1 : trimL (trimR (trimL s)) = trimR (trimL s) := by
    apply trimL_eq_self
    intro c hc
    have hne : trimR (trimL s) ≠ [] := by
      intro hnil
      rw [hnil] at hc
      cases hc
    rw [head_trimR_of_ne_nil hne] at hc
    exact head_dropWhile_false isWs s c hc
  rw [h1, trimR_idem]

/-- Removing trailing backslashes does nothing when the last character is
not a backslash. -/
theorem rstripBS_eq_self {s : Str} (h : s.getLast? ≠ some '\\') : rstripBS s = s := by
  show (s.reverse.dropWhile (fun c => c == '\\')).reverse = s
  cases hr : s.reverse with
  | nil =>
    have : s = [] := by
      have := congrArg List.reverse hr
      simpa using this
    simp [this]
  | cons c cs =>
    have hc2 : s.getLast? = some c := by
      rw [← List.head?_reverse, hr]; rfl
    have hcb : (c == '\\') = false := by
      cases hcc : c == '\\' with
      | false => rfl
      | true =>
        have : c = '\\' := by simpa using hcc
        rw [this] at hc2
        exact absurd hc2 h
    rw [List.dropWhile_cons, hcb]
    simp [← hr]

/-- The continuation piece of an already stripped line without a trailing
backslash is that line itself. -/
theorem piece_pyStrip {line : Str} (h : (pyStrip line).getLast? ≠ some '\\') :
    piece (pyStrip line) = pyStrip line := by
  show pyStrip (rstripBS (pyStrip line)) = pyStrip line
  rw [rstripBS_eq_self h, pyStrip_idem]

/-- C4 (amended): the tokenizer classifies each examined line by the rules
in order with first match winning: a line empty after trimming yields no
token; a non-empty comment line whose first two raw characters are not a
double hash yields no token; a line whose first raw character is a tab
yields a command token valued by the spliced line, provided its
continuation splicing completes at this line (trimmed form not ending in a
backslash); a remaining line containing a colon and no equals sign
likewise yields a target token; any other line yields an expression token
whose value is the raw line stripped of spaces, semicolons and tabs at
both ends. -/
theorem c4_classification : ∀ (line : Str) (rest : List Str),
    (pyStrip line = [] → tokenize (line :: rest) = tokenize rest) ∧
    ((pyStrip line).head? = some '#' → line.take 2 ≠ ['#', '#'] →
      tokenize (line :: rest) = tokenize rest) ∧
    (pyStrip line ≠ [] → ¬ ((pyStrip line).head? = some '#' ∧ line.take 2 ≠ ['#', '#']) →
      line.head? = some '\t' → (pyStrip line).getLast? ≠ some '\\' →
      tokenize (line :: rest) = (tokenize rest).map (fun ts => (Tok.command, pyStrip line) :: ts)) ∧
    (pyStrip line ≠ [] → ¬ ((pyStrip line).head? = some '#' ∧ line.take 2 ≠ ['#', '#']) →
      line.head? ≠ some '\t' → ':' ∈ line → '=' ∉ line → (pyStrip line).getLast? ≠ some '\\' →
      tokenize (line :: rest) = (tokenize rest).map (fun ts => (Tok.target, pyStrip line) :: ts)) ∧
    (pyStrip line ≠ [] → ¬ ((pyStrip line).head? = some '#' ∧ line.take 2 ≠ ['#', '#']) →
      line.head? ≠ some '\t' → ¬ (':' ∈ line ∧ '=' ∉ line) →
      tokenize (line :: rest) =
        (tokenize rest).map (fun ts => (Tok.expression, stripSet exprStripChars line) :: ts)) := by
  intro line rest
  refine ⟨?_, ?_, ?_, ?_, ?_⟩
  · intro h1
    show tokGo none (line :: rest) = tokGo none rest
    rw [tokGo_none_cons, if_pos h1]
  · intro ha hb
    show tokGo none (line :: rest) = tokGo none rest
    have h1 : pyStrip line ≠ [] := by
      intro hnil
      rw [hnil] at ha
      cases ha
    rw [tokGo_none_cons, if_neg h1, if_pos ⟨ha, hb⟩]
  · intro h1 h2 h3 h4
    show tokGo none (line :: rest) = _
    rw [tokGo_none_cons, if_neg h1, if_neg h2, if_pos h3, if_neg h4]
    have : joinSp [piece (pyStrip line)] = pyStrip line := by
      show piece (pyStrip line) = pyStrip line
      exact piece_pyStrip h4
    rw [this]
    rfl
  · intro h1 h2 h3 hc he h4
    show tokGo none (line :: rest) = _
    rw [tokGo_none_cons, if_neg h1, if_neg h2, if_neg h3, if_pos ⟨hc, he⟩, if_neg h4]
    have : joinSp [piece (pyStrip line)] = pyStrip line := by
      show piece (pyStrip line) = pyStrip line
      exact piece_pyStrip h4
    rw [this]
    rfl
  · intro h1 h2 h3 h4
    show tokGo none (line :: rest) = _
    rw [tokGo_none_cons, if_neg h1, if_neg h2, if_neg h3, if_neg h4]
    rfl

/-- C4 counterexample: the final input line below has a leading tab, a
non-empty trimmed form and is no comment, so the claimed rule table says
it yields a command token; tokenization instead signals an error because
the trimmed line ends in a continuation backslash at end of input. -/
theorem c4_counterexample :
    pyStrip (str "\ta \\") ≠ [] ∧
    (pyStrip (str "\ta \\")).head? ≠ some '#' ∧
    (str "\ta \\").head? = some '\t' ∧
    tokenize [str "\ta \\"] = .error .stopIteration := by decide

/-- Witness for C4 at a concrete expression line. -/
theorem c4_witness :
    tokenize [str "x = 1"] = .ok [(Tok.expression, stripSet exprStripChars (str "x = 1"))] := by
  have h := (c4_classification (str "x = 1") []).2.2.2.2
    (by decide) (by decide) (by decide) (by decide)
  rw [h]
  rfl

/-- In the continuation state, input made only of lines that are non-empty
after trimming and end in a backslash runs off the end of the iterator. -/
theorem tokGo_glue_allCont : ∀ (conts : List Str) (t : Tok) (acc : List Str),
    (∀ c ∈ conts, pyStrip c ≠ [] ∧ (pyStrip c).getLast? = some '\\') →
    tokGo (some (t, acc)) conts = .error .stopIteration := by
  intro conts
  induction conts with
  | nil => intro t acc _; rfl
  | cons c cs ih =>
    intro t acc h
    obtain ⟨h1, h2⟩ := h c (List.mem_cons_self c cs)
    rw [tokGo_glue_cons, if_neg h1, if_pos h2]
    exact ih t _ (fun x hx => h x (List.mem_cons_of_mem c hx))

/-- C9: when a command or target line ends, after trimming, in a
continuation backslash and every following line does too, continuation
reaches end of input and tokenization signals the StopIteration error
instead of emitting a truncated token. -/
theorem c9_eof_continuation : ∀ (line : Str) (conts : List Str),
    pyStrip line ≠ [] →
    ¬ ((pyStrip line).head? = some '#' ∧ line.take 2 ≠ ['#', '#']) →
    (line.head? = some '\t' ∨ (':' ∈ line ∧ '=' ∉ line)) →
    (pyStrip line).getLast? = some '\\' →
    (∀ c ∈ conts, pyStrip c ≠ [] ∧ (pyStrip c).getLast? = some '\\') →
    tokenize (line :: conts) = .error .stopIteration := by
  intro line conts h1 h2 h3 h4 h5
  show tokGo none (line :: conts) = _
  rw [tokGo_none_cons, if_neg h1, if_neg h2]
  by_cases ht : line.head? = some '\t'
  · rw [if_pos ht, if_pos h4]
    exact tokGo_glue_allCont conts _ _ h5
  · rcases h3 with h3 | h3
    · exact absurd h3 ht
    · rw [if_neg ht, if_pos h3, if_pos h4]
      exact tokGo_glue_allCont conts _ _ h5

/-- Witness for C9 at a concrete target line ending in a backslash. -/
theorem c9_witness : tokenize [str "a: b \\", str "c \\"] = .error .stopIteration :=
  c9_eof_continuation (str "a: b \\") [str "c \\"] (by decide) (by decide)
    (Or.inr (by decide)) (by decide) (by decide)

/-- C10: when a command or target line ends, after trimming, in a
continuation backslash and the next physical line is empty after trimming,
tokenization fails with the IndexError from indexing the last character of
the empty stripped line, rather than treating the blank line as
terminating or skippable. -/
theorem c10_blank_continuation : ∀ (line blank : Str) (rest : List Str),
    pyStrip line ≠ [] →
    ¬ ((pyStrip line).head? = some '#' ∧ line.take 2 ≠ ['#', '#']) →
    (line.head? = some '\t' ∨ (':' ∈ line ∧ '=' ∉ line)) →
    (pyStrip line).getLast? = some '\\' →
    pyStrip blank = [] →
    tokenize (line :: blank :: rest) = .error .indexError := by
  intro line blank rest h1 h2 h3 h4 h5
  have hglue : ∀ (t : Tok) (acc : List Str),
      tokGo (some (t, acc)) (blank :: rest) = .error .indexError := by
    intro t acc
    rw [tokGo_glue_cons, if_pos h5]
  show tokGo none (line :: blank :: rest) = _
  rw [tokGo_none_cons, if_neg h1, if_neg h2]
  by_cases ht : line.head? = some '\t'
  · rw [if_pos ht, if_pos h4]
    exact hglue _ _
  · rcases h3 with h3 | h3
    · exact absurd h3 ht
    · rw [if_neg ht, if_pos h3, if_pos h4]
      exact hglue _ _

/-- Witness for C10 at a concrete tab line followed by a blank line. -/
theorem c10_witness : tokenize [str "\tx \\", str "   "] = .error .indexError :=
  c10_blank_continuation (str "\tx \\") (str "   ") [] (by decide) (by decide)
    (Or.inl (by decide)) (by decide) (by decide)

/-- On the two-cycle influences map, the recursion from origin A exhausts
every stack depth: each level recurses into the single influence of the
other node and back. -/
theorem recLevel_cyc_none (fuel : Nat) : ∀ ind : AList,
    recLevel cycInfl (str "A") fuel [str "B"] ind = none ∧
    recLevel cycInfl (str "A") fuel [str "A"] ind = none := by
  induction fuel with
  | zero => intro ind; exact ⟨rfl, rfl⟩
  | succ n ih =>
    intro ind
    constructor
    · show recLevel cycInfl (str "A") n (getD cycInfl (str "B"))
        (unionInto ind (str "A") (getD cycInfl (str "B"))) = none
      have hB : getD cycInfl (str "B") = [str "A"] := by decide
      rw [hB]
      exact (ih _).2
    · show recLevel cycInfl (str "A") n (getD cycInfl (str "A"))
        (unionInto ind (str "A") (getD cycInfl (str "A"))) = none
      have hA : getD cycInfl (str "A") = [str "B"] := by decide
      rw [hA]
      exact (ih _).1

/-- The closure over the cyclic influences map exceeds every stack depth. -/
theorem closure_cyc_none (fuel : Nat) : closure cycInfl fuel = none := by
  show (match recLevel cycInfl (str "A") fuel [str "B"] [] with
        | none => none
        | some ind2 => closureGo cycInfl fuel [(str "B", [str "A"])] ind2) = none
  rw [(recLevel_cyc_none fuel []).1]

/-- C1: on the cyclic input the influence maps are built, but the
unmemoized indirect-influence recursion revisits the two nodes forever:
for every stack depth the pipeline reports the closure as not finished,
so the source recursion never terminates and, contrary to the claim, no
indirect-influence sets are ever produced. -/
theorem c1_cycle_diverges (fuel : Nat) : analyze cyclicLines fuel = .ok none := by
  have h1 : analyze cyclicLines fuel =
      .ok ((closure cycInfl fuel).map (fun ind => ⟨cycDeps, cycInfl, [], ind⟩)) := rfl
  rw [h1, closure_cyc_none fuel]
  rfl

/-- C2 counterexample: on the chain input the analysis terminates, the
indirect-influence set of C is the singleton holding A, and B is not a
member, refuting the claimed value holding both A and B. -/
theorem c2_counterexample :
    chainView = some ([str "B"], [str "A"], [str "A"]) ∧ str "B" ∉ [str "A"] := by
  constructor
  · decide
  · decide

/-- C2 (amended): on the chain input, the influence set of C holds
exactly B and the influence set of B holds exactly A as claimed, but the
indirect-influence set of C holds exactly A: the recursion adds, for every
reachable node, the influences of that node, so the direct influence B
itself is never inserted. -/
theorem c2_amended : chainView = some ([str "B"], [str "A"], [str "A"]) := by decide

/-- Sorting with the insertion sort of the model yields a sorted list. -/
theorem sorted_sortStr (l : List Str) : List.Sorted (fun a b : Str => a ≤ b) (sortStr l) :=
  List.sorted_insertionSort _ l

/-- Membership is preserved by the sorting of the model. -/
theorem mem_sortStr {x : Str} {l : List Str} : x ∈ sortStr l ↔ x ∈ l :=
  List.mem_insertionSort _

/-- The required list of a built record is the sorted written tokens. -/
theorem mkRec_deps (g : MTGroups) (body : List (Tok × Str)) :
    (mkRec g body).deps = sortStr (reqTokens g) := by
  cases g with
  | mk nm dd oo dc => cases dd <;> rfl

/-- The order-only list of a built record is the sorted written tokens. -/
theorem mkRec_orderDeps (g : MTGroups) (body : List (Tok × Str)) :
    (mkRec g body).orderDeps = sortStr (ooTokens g) := by
  cases g with
  | mk nm dd oo dc => cases oo <;> rfl

/-- C3: the concrete target line is extracted into the record with name
build, required dependencies a, b, c, order-only dependencies o1, o2 and
docstring text, and in general the two dependency lists of every record
the extraction produces are sorted lexicographically. -/
theorem c3_target_extraction :
    parseTargetLine c3Line =
      some ⟨str "build", [str "a", str "b", str "c"], [str "o1", str "o2"],
        str "builds it", []⟩ ∧
    ∀ (s : Str) (r : TargetRec), parseTargetLine s = some r →
      List.Sorted (fun a b : Str => a ≤ b) r.deps ∧
      List.Sorted (fun a b : Str => a ≤ b) r.orderDeps := by
  constructor
  · decide
  · intro s r h
    have := Option.map_eq_some'.mp h
    obtain ⟨g, hg, hr⟩ := this
    rw [← hr, mkRec_deps, mkRec_orderDeps]
    exact ⟨sorted_sortStr _, sorted_sortStr _⟩

/-- Witness for C3 at the concrete line. -/
theorem c3_witness :
    List.Sorted (fun a b : Str => a ≤ b)
      (⟨str "build", [str "a", str "b", str "c"], [str "o1", str "o2"],
        str "builds it", []⟩ : TargetRec).deps :=
  (c3_target_extraction.2 c3Line
    ⟨str "build", [str "a", str "b", str "c"], [str "o1", str "o2"],
      str "builds it", []⟩ (by decide)).1

/-- C5 counterexample: the line naming b both before and after the pipe
produces a record whose required and order-only lists both hold b, so the
two lists of one record are not disjoint. -/
theorem c5_counterexample :
    parseTargetLine c5Line = some ⟨str "a", [str "b"], [str "b"], [], []⟩ ∧
    str "b" ∈ (⟨str "a", [str "b"], [str "b"], [], []⟩ : TargetRec).deps ∧
    str "b" ∈ (⟨str "a", [str "b"], [str "b"], [], []⟩ : TargetRec).orderDeps := by
  decide

/-- C5 (amended): the extraction copies the written name tokens into the
two sorted lists without any disjointness normalization, so the lists of a
record are disjoint exactly when the names written before and after the
pipe are; in particular when the written token lists are disjoint, so are
the extracted lists. -/
theorem c5_amended : ∀ (s : Str) (g : MTGroups) (r : TargetRec),
    matchTarget s = some g → parseTargetLine s = some r →
    (∀ x, x ∈ reqTokens g → x ∉ ooTokens g) →
    ∀ x, x ∈ r.deps → x ∉ r.orderDeps := by
  intro s g r hm hp hdisj x hx
  have hr : r = mkRec g [] := by
    have : parseTargetLine s = some (mkRec g []) := by
      show (matchTarget s).map (fun g2 => mkRec g2 []) = some (mkRec g [])
      rw [hm, Option.map_some']
    rw [this] at hp
    injection hp with h2
    exact h2.symm
  rw [hr, mkRec_deps] at hx
  rw [hr, mkRec_orderDeps]
  intro hmem
  exact hdisj x (mem_sortStr.mp hx) (mem_sortStr.mp hmem)

/-- Witness for C5 at a line with disjoint written name sets. -/
theorem c5_witness :
    str "b" ∉ (⟨str "a", [str "b"], [str "c"], [], []⟩ : TargetRec).orderDeps :=
  c5_amended (str "a: b | c") ⟨str "a", some (str "b "), some (str "c"), none⟩
    ⟨str "a", [str "b"], [str "c"], [], []⟩ (by decide) (by decide) (by decide)
    (str "b") (by decide)

/-- C8 counterexample: two malformed target lines at different positions
and with different raw content produce the same fixed error value, so the
failure identifies neither the position nor the content of the offending
line. -/
theorem c8_counterexample :
    parseLines [str ": B"] = .error (.par .attributeError) ∧
    parseLines [str "x 1", str ": C"] = .error (.par .attributeError) := by
  decide

/-- C8 (amended): a target token whose text does not match the extraction
grammar makes parsing raise the attribute error of the failed match, not
silently skip the line; the raised error is a fixed value carrying neither
the position nor the raw content of the line. -/
theorem c8_amended : ∀ (v : Str) (rest : List (Tok × Str)), matchTarget v = none →
    parseAst ((Tok.target, v) :: rest) = .error .attributeError := by
  intro v rest h
  show (match matchTarget v with
        | none => Except.error PErr.attributeError
        | some g2 => (parseGo (some (g2, [])) rest).map (fun ns => flushOpen none ++ ns)) =
      .error .attributeError
  rw [h]

/-- Witness for C8 at the colon-first line. -/
theorem c8_witness :
    matchTarget (str ": B") = none ∧
    parseAst [(Tok.target, str ": B")] = .error .attributeError :=
  ⟨by decide, c8_amended (str ": B") [] (by decide)⟩

/-- Lookup distributes over appending maps, preferring the first one. -/
theorem alookup_append {β : Type} (m1 m2 : List (Str × β)) (x : Str) :
    alookup (m1 ++ m2) x =
      (match alookup m1 x with
       | some v => some v
       | none => alookup m2 x) := by
  induction m1 with
  | nil => rfl
  | cons hd tl ih =>
    obtain ⟨k, v⟩ := hd
    by_cases h : k = x
    · simp [alookup, h]
    · simp [alookup, h, ih]

/-- Unfolding equation of lookup on a nonempty map. -/
theorem alookup_cons {β : Type} (k1 : Str) (w : β) (tl : List (Str × β)) (d : Str) :
    alookup ((k1, w) :: tl) d = if k1 = d then some w else alookup tl d := rfl

/-- Reading a stored set on a nonempty map. -/
theorem getD_cons (k1 : Str) (w : List Str) (tl : AList) (d : Str) :
    getD ((k1, w) :: tl) d = if k1 = d then w else getD tl d := by
  by_cases h : k1 = d
  · simp [getD, alookup_cons, h]
  · simp [getD, alookup_cons, h]

/-- Entry presence on a nonempty map. -/
theorem isSome_cons {β : Type} (k1 : Str) (w : β) (tl : List (Str × β)) (d : Str) :
    (alookup ((k1, w) :: tl) d).isSome ↔ k1 = d ∨ (alookup tl d).isSome := by
  by_cases h : k1 = d
  · simp [alookup_cons, h]
  · simp [alookup_cons, h]

/-- A bare defaultdict access does not change any stored set. -/
theorem getD_touch (m : AList) (k d : Str) : getD (touch m k) d = getD m d := by
  by_cases h : (alookup m k).isSome
  · rw [touch, if_pos h]
  · rw [touch, if_neg h]
    show (alookup (m ++ [(k, [])]) d).getD [] = (alookup m d).getD []
    rw [alookup_append]
    cases hm : alookup m d with
    | some v => rfl
    | none =>
      show (alookup [(k, [])] d).getD [] = ([] : List Str)
      by_cases hk : k = d
      · simp [alookup, hk]
      · simp [alookup, hk]

/-- A bare defaultdict access creates exactly the touched entry. -/
theorem isSome_alookup_touch (m : AList) (k d : Str) :
    (alookup (touch m k) d).isSome ↔ (alookup m d).isSome ∨ d = k := by
  by_cases h : (alookup m k).isSome
  · rw [touch, if_pos h]
    constructor
    · exact Or.inl
    · rintro (hh | rfl)
      · exact hh
      · exact h
  · rw [touch, if_neg h]
    rw [alookup_append]
    cases hm : alookup m d with
    | some v => simp
    | none =>
      rw [isSome_cons]
      simp only [Option.isSome_none]
      constructor
      · rintro (hh | hh)
        · exact Or.inr hh.symm
        · exact absurd hh (by simp [alookup])
      · rintro (hh | hh)
        · exact absurd hh (by simp)
        · exact Or.inl hh.symm

/-- Membership after the guarded set insertion. -/
theorem mem_insSet {x v : Str} {s : List Str} : x ∈ insSet v s ↔ x = v ∨ x ∈ s := by
  by_cases h : v ∈ s
  · rw [insSet, if_pos h]
    constructor
    · exact Or.inr
    · rintro (rfl | hx)
      · exact h
      · exact hx
  · rw [insSet, if_neg h]
    rw [List.mem_append, List.mem_singleton]
    tauto

/-- The stored sets after adding one value under one key. -/
theorem getD_addTo (m : AList) (k v d : Str) :
    getD (addTo m k v) d = if d = k then insSet v (getD m d) else getD m d := by
  induction m with
  | nil =>
    show getD ((k, [v]) :: []) d = if d = k then insSet v (getD [] d) else getD [] d
    by_cases h : d = k
    · simp only [getD_cons, if_pos h.symm, if_pos h]
      rfl
    · simp only [getD_cons, if_neg (fun h2 : k = d => h h2.symm), if_neg h]
  | cons hd tl ih =>
    obtain ⟨k1, s⟩ := hd
    show getD (if k1 = k then (k1, insSet v s) :: tl else (k1, s) :: addTo tl k v) d = _
    by_cases h1 : k1 = k
    · rw [if_pos h1]
      by_cases h2 : k1 = d
      · have hdk : d = k := h2.symm.trans h1
        simp only [getD_cons, if_pos h2, if_pos hdk]
      · have hdk : ¬ d = k := fun h3 => h2 (h1.trans h3.symm)
        simp only [getD_cons, if_neg h2, if_neg hdk]
    · rw [if_neg h1]
      by_cases h2 : k1 = d
      · have hdk : ¬ d = k := fun h3 => h1 (h2.trans h3)
        simp only [getD_cons, if_pos h2, if_neg hdk]
      · simp only [getD_cons, if_neg h2, ih]

/-- Adding a value creates exactly the entry of its key. -/
theorem isSome_alookup_addTo (m : AList) (k v d : Str) :
    (alookup (addTo m k v) d).isSome ↔ (alookup m d).isSome ∨ d = k := by
  induction m with
  | nil =>
    show (alookup ((k, [v]) :: []) d).isSome ↔ (alookup [] d).isSome ∨ d = k
    rw [isSome_cons]
    constructor
    · rintro (h | h)
      · exact Or.inr h.symm
      · exact absurd h (by simp [alookup])
    · rintro (h | h)
      · exact absurd h (by simp [alookup])
      · exact Or.inl h.symm
  | cons hd tl ih =>
    obtain ⟨k1, s⟩ := hd
    show (alookup (if k1 = k then (k1, insSet v s) :: tl
        else (k1, s) :: addTo tl k v) d).isSome ↔ _
    by_cases h1 : k1 = k
    · rw [if_pos h1, isSome_cons, isSome_cons]
      have himp : d = k → k1 = d := fun hdk => h1.trans hdk.symm
      tauto
    · rw [if_neg h1, isSome_cons, isSome_cons, ih]
      tauto

/-- A fold of bare accesses changes no stored set. -/
theorem getD_foldTouch (l : List Str) (m : AList) (d : Str) :
    getD (l.foldl touch m) d = getD m d := by
  induction l generalizing m with
  | nil => rfl
  | cons a as ih => rw [List.foldl_cons, ih, getD_touch]

/-- A fold of bare accesses creates exactly the entries of its keys. -/
theorem isSome_foldTouch (l : List Str) (m : AList) (d : Str) :
    (alookup (l.foldl touch m) d).isSome ↔ (alookup m d).isSome ∨ d ∈ l := by
  induction l generalizing m with
  | nil => simp
  | cons a as ih =>
    rw [List.foldl_cons, ih, isSome_alookup_touch, List.mem_cons]
    tauto

/-- Membership in the stored sets after folding reverse-edge additions. -/
theorem mem_getD_foldAdd (deps : List Str) (m : AList) (nm d x : Str) :
    x ∈ getD (deps.foldl (fun m2 k => addTo m2 k nm) m) d ↔
      x ∈ getD m d ∨ (d ∈ deps ∧ x = nm) := by
  induction deps generalizing m with
  | nil => simp
  | cons a as ih =>
    rw [List.foldl_cons, ih, getD_addTo, List.mem_cons]
    by_cases h : d = a
    · subst h
      rw [if_pos rfl, mem_insSet]
      tauto
    · rw [if_neg h]
      constructor
      · rintro (hm | ⟨hd2, hx⟩)
        · exact Or.inl hm
        · exact Or.inr ⟨Or.inr hd2, hx⟩
      · rintro (hm | ⟨hd2 | hd2, hx⟩)
        · exact Or.inl hm
        · exact absurd hd2 h
        · exact Or.inr ⟨hd2, hx⟩

/-- Entries present after folding reverse-edge additions. -/
theorem isSome_foldAdd (deps : List Str) (m : AList) (nm d : Str) :
    (alookup (deps.foldl (fun m2 k => addTo m2 k nm) m) d).isSome ↔
      (alookup m d).isSome ∨ d ∈ deps := by
  induction deps generalizing m with
  | nil => simp
  | cons a as ih =>
    rw [List.foldl_cons, ih, isSome_alookup_addTo, List.mem_cons]
    tauto

/-- Membership after folding guarded insertions into a set list. -/
theorem mem_foldInsSet (l : List Str) (s0 : List Str) (x : Str) :
    x ∈ l.foldl (fun s k => insSet k s) s0 ↔ x ∈ s0 ∨ x ∈ l := by
  induction l generalizing s0 with
  | nil => simp
  | cons a as ih =>
    rw [List.foldl_cons, ih, mem_insSet, List.mem_cons]
    tauto

/-- Replacing the value under a different key leaves a lookup unchanged. -/
theorem alookup_setD_ne (m : DepsMap) (k x : Str) (v : List Str × List Str)
    (h : k ≠ x) : alookup (setD m k v) x = alookup m x := by
  induction m with
  | nil => simp [setD, alookup, h]
  | cons hd tl ih =>
    obtain ⟨k1, v1⟩ := hd
    by_cases h1 : k1 = k
    · subst h1
      simp [setD, alookup, h]
    · simp [setD, h1, alookup, ih]

/-- The first loop never records the phony name in the dependencies map. -/
theorem deps_phony_foldl : ∀ (ast : List AstNode) (g : Graph1),
    alookup (ast.foldl step1 g).deps phonyName = alookup g.deps phonyName := by
  intro ast
  induction ast with
  | nil => intro g; rfl
  | cons nd tl ih =>
    intro g
    rw [List.foldl_cons, ih]
    cases nd with
    | rawNode t v => rfl
    | targetNode r =>
      by_cases hp : r.name = phonyName
      · simp [step1, hp]
      · simp only [step1, if_neg hp]
        exact alookup_setD_ne g.deps r.name phonyName _ hp

/-- Filtering phony target nodes out of the AST does not change the first
loop. -/
theorem foldl_filter_keep : ∀ (ast : List AstNode) (g : Graph1),
    (ast.filter keepNode).foldl step1 g = ast.foldl step1 g := by
  intro ast
  induction ast with
  | nil => intro g; rfl
  | cons nd tl ih =>
    intro g
    by_cases hk : keepNode nd = true
    · rw [List.filter_cons_of_pos hk, List.foldl_cons, List.foldl_cons, ih]
    · rw [List.filter_cons_of_neg hk, ih, List.foldl_cons]
      cases nd with
      | rawNode t v => exact absurd rfl hk
      | targetNode r =>
        have hp : r.name = phonyName := by
          by_contra hc
          apply hk
          show (!(r.name == phonyName)) = true
          simp [hc]
        simp [step1, hp]

/-- C6: the phony pseudo-target is excluded from the graph entirely: it is
never a key of the dependencies map; removing every phony target node from
the AST changes none of the four outputs, so the phony dependency lists
contribute no entries or edges to influences, the order-only set or the
indirect influences; and the concrete phony-only input yields four empty
maps. -/
theorem c6_phony_excluded :
    (∀ ast : List AstNode, alookup (buildMaps ast).deps phonyName = none) ∧
    (∀ (ast : List AstNode) (fuel : Nat),
      getDepsInfl (ast.filter keepNode) fuel = getDepsInfl ast fuel) ∧
    analyze [str ".PHONY: clean test"] 1 = .ok (some ⟨[], [], [], []⟩) := by
  refine ⟨?_, ?_, ?_⟩
  · intro ast
    rw [show buildMaps ast = ast.foldl step1 ⟨[], [], []⟩ from rfl, deps_phony_foldl]
    rfl
  · intro ast fuel
    have hb : buildMaps (ast.filter keepNode) = buildMaps ast :=
      foldl_filter_keep ast ⟨[], [], []⟩
    simp only [getDepsInfl, hb]
  · decide

/-- Extending the AST by a raw node adds no edge provenance. -/
theorem inflSpec_cons_raw {t : Tok} {v : Str} {tl : List AstNode} {d x : Str} :
    inflSpec (AstNode.rawNode t v :: tl) d x ↔ inflSpec tl d x := by
  constructor
  · rintro ⟨r2, hr2, hph, hnx, hd⟩
    rcases List.mem_cons.mp hr2 with heq | hr3
    · cases heq
    · exact ⟨r2, hr3, hph, hnx, hd⟩
  · rintro ⟨r2, hr3, hph, hnx, hd⟩
    exact ⟨r2, List.mem_cons_of_mem _ hr3, hph, hnx, hd⟩

/-- Extending the AST by a target node splits the edge provenance. -/
theorem inflSpec_cons_target {r : TargetRec} {tl : List AstNode} {d x : Str} :
    inflSpec (AstNode.targetNode r :: tl) d x ↔
      (r.name ≠ phonyName ∧ r.name = x ∧ d ∈ r.deps) ∨ inflSpec tl d x := by
  constructor
  · rintro ⟨r2, hr2, hph, hnx, hd⟩
    rcases List.mem_cons.mp hr2 with heq | hr3
    · injection heq with h3
      subst h3
      exact Or.inl ⟨hph, hnx, hd⟩
    · exact Or.inr ⟨r2, hr3, hph, hnx, hd⟩
  · rintro (⟨hph, hnx, hd⟩ | ⟨r2, hr3, hph, hnx, hd⟩)
    · exact ⟨r, List.mem_cons_self _ _, hph, hnx, hd⟩
    · exact ⟨r2, List.mem_cons_of_mem _ hr3, hph, hnx, hd⟩

/-- Membership in the influence sets built by the first loop, relative to
a starting state. -/
theorem mem_infl_foldl : ∀ (ast : List AstNode) (g : Graph1) (d x : Str),
    x ∈ getD (ast.foldl step1 g).infl d ↔ x ∈ getD g.infl d ∨ inflSpec ast d x := by
  intro ast
  induction ast with
  | nil =>
    intro g d x
    simp [inflSpec]
  | cons nd tl ih =>
    intro g d x
    rw [List.foldl_cons, ih]
    cases nd with
    | rawNode t v =>
      rw [show step1 g (AstNode.rawNode t v) = g from rfl, inflSpec_cons_raw]
    | targetNode r =>
      by_cases hp : r.name = phonyName
      · simp only [step1, if_pos hp]
        constructor
        · rintro (h | hs)
          · exact Or.inl h
          · exact Or.inr (inflSpec_cons_target.mpr (Or.inr hs))
        · rintro (h | hs)
          · exact Or.inl h
          · rcases inflSpec_cons_target.mp hs with ⟨hph, _, _⟩ | hs2
            · exact absurd hp hph
            · exact Or.inr hs2
      · have hstep : x ∈ getD (step1 g (AstNode.targetNode r)).infl d ↔
            x ∈ getD g.infl d ∨ (d ∈ r.deps ∧ x = r.name) := by
          simp only [step1, if_neg hp]
          show x ∈ getD (r.orderDeps.foldl touch
            (r.deps.foldl (fun m k => addTo m k r.name) (touch g.infl r.name))) d ↔ _
          rw [getD_foldTouch, mem_getD_foldAdd, getD_touch]
        rw [hstep, inflSpec_cons_target]
        constructor
        · rintro ((h | ⟨hd, hx⟩) | hs)
          · exact Or.inl h
          · exact Or.inr (Or.inl ⟨hp, hx.symm, hd⟩)
          · exact Or.inr (Or.inr hs)
        · rintro (h | (⟨_, hx, hd⟩ | hs))
          · exact Or.inl (Or.inl h)
          · exact Or.inl (Or.inr ⟨hd, hx.symm⟩)
          · exact Or.inr hs

/-- Extending the AST by a raw node adds no entry provenance. -/
theorem keySpec_cons_raw {t : Tok} {v : Str} {tl : List AstNode} {d : Str} :
    keySpec (AstNode.rawNode t v :: tl) d ↔ keySpec tl d := by
  constructor
  · rintro ⟨r2, hr2, hph, hor⟩
    rcases List.mem_cons.mp hr2 with heq | hr3
    · cases heq
    · exact ⟨r2, hr3, hph, hor⟩
  · rintro ⟨r2, hr3, hph, hor⟩
    exact ⟨r2, List.mem_cons_of_mem _ hr3, hph, hor⟩

/-- Extending the AST by a target node splits the entry provenance. -/
theorem keySpec_cons_target {r : TargetRec} {tl : List AstNode} {d : Str} :
    keySpec (AstNode.targetNode r :: tl) d ↔
      (r.name ≠ phonyName ∧ (r.name = d ∨ d ∈ r.deps ∨ d ∈ r.orderDeps)) ∨ keySpec tl d := by
  constructor
  · rintro ⟨r2, hr2, hph, hor⟩
    rcases List.mem_cons.mp hr2 with heq | hr3
    · injection heq with h3
      subst h3
      exact Or.inl ⟨hph, hor⟩
    · exact Or.inr ⟨r2, hr3, hph, hor⟩
  · rintro (⟨hph, hor⟩ | ⟨r2, hr3, hph, hor⟩)
    · exact ⟨r, List.mem_cons_self _ _, hph, hor⟩
    · exact ⟨r2, List.mem_cons_of_mem _ hr3, hph, hor⟩

/-- Presence of entries in the influences map built by the first loop,
relative to a starting state. -/
theorem isSome_infl_foldl : ∀ (ast : List AstNode) (g : Graph1) (d : Str),
    (alookup (ast.foldl step1 g).infl d).isSome ↔
      (alookup g.infl d).isSome ∨ keySpec ast d := by
  intro ast
  induction ast with
  | nil =>
    intro g d
    simp [keySpec]
  | cons nd tl ih =>
    intro g d
    rw [List.foldl_cons, ih]
    cases nd with
    | rawNode t v =>
      rw [show step1 g (AstNode.rawNode t v) = g from rfl, keySpec_cons_raw]
    | targetNode r =>
      by_cases hp : r.name = phonyName
      · simp only [step1, if_pos hp]
        constructor
        · rintro (h | hs)
          · exact Or.inl h
          · exact Or.inr (keySpec_cons_target.mpr (Or.inr hs))
        · rintro (h | hs)
          · exact Or.inl h
          · rcases keySpec_cons_target.mp hs with ⟨hph, _⟩ | hs2
            · exact absurd hp hph
            · exact Or.inr hs2
      · have hstep : (alookup (step1 g (AstNode.targetNode r)).infl d).isSome ↔
            (alookup g.infl d).isSome ∨ (d = r.name ∨ d ∈ r.deps ∨ d ∈ r.orderDeps) := by
          simp only [step1, if_neg hp]
          show (alookup (r.orderDeps.foldl touch
            (r.deps.foldl (fun m k => addTo m k r.name) (touch g.infl r.name))) d).isSome ↔ _
          rw [isSome_foldTouch, isSome_foldAdd, isSome_alookup_touch]
          tauto
        rw [hstep, keySpec_cons_target]
        constructor
        · rintro ((h | hx) | hs)
          · exact Or.inl h
          · rcases hx with hx | hx | hx
            · exact Or.inr (Or.inl ⟨hp, Or.inl hx.symm⟩)
            · exact Or.inr (Or.inl ⟨hp, Or.inr (Or.inl hx)⟩)
            · exact Or.inr (Or.inl ⟨hp, Or.inr (Or.inr hx)⟩)
          · exact Or.inr (Or.inr hs)
        · rintro (h | (⟨_, hx⟩ | hs))
          · exact Or.inl (Or.inl h)
          · rcases hx with hx | hx | hx
            · exact Or.inl (Or.inr (Or.inl hx.symm))
            · exact Or.inl (Or.inr (Or.inr (Or.inl hx)))
            · exact Or.inl (Or.inr (Or.inr (Or.inr hx)))
          · exact Or.inr hs

/-- Extending the AST by a raw node adds no order-only provenance. -/
theorem ooSpec_cons_raw {t : Tok} {v : Str} {tl : List AstNode} {x : Str} :
    ooSpec (AstNode.rawNode t v :: tl) x ↔ ooSpec tl x := by
  constructor
  · rintro ⟨r2, hr2, hph, hx⟩
    rcases List.mem_cons.mp hr2 with heq | hr3
    · cases heq
    · exact ⟨r2, hr3, hph, hx⟩
  · rintro ⟨r2, hr3, hph, hx⟩
    exact ⟨r2, List.mem_cons_of_mem _ hr3, hph, hx⟩

/-- Extending the AST by a target node splits the order-only provenance. -/
theorem ooSpec_cons_target {r : TargetRec} {tl : List AstNode} {x : Str} :
    ooSpec (AstNode.targetNode r :: tl) x ↔
      (r.name ≠ phonyName ∧ x ∈ r.orderDeps) ∨ ooSpec tl x := by
  constructor
  · rintro ⟨r2, hr2, hph, hx⟩
    rcases List.mem_cons.mp hr2 with heq | hr3
    · injection heq with h3
      subst h3
      exact Or.inl ⟨hph, hx⟩
    · exact Or.inr ⟨r2, hr3, hph, hx⟩
  · rintro (⟨hph, hx⟩ | ⟨r2, hr3, hph, hx⟩)
    · exact ⟨r, List.mem_cons_self _ _, hph, hx⟩
    · exact ⟨r2, List.mem_cons_of_mem _ hr3, hph, hx⟩

/-- Membership in the order-only set built by the first loop, relative to
a starting state. -/
theorem mem_oo_foldl : ∀ (ast : List AstNode) (g : Graph1) (x : Str),
    x ∈ (ast.foldl step1 g).oo ↔ x ∈ g.oo ∨ ooSpec ast x := by
  intro ast
  induction ast with
  | nil =>
    intro g x
    simp [ooSpec]
  | cons nd tl ih =>
    intro g x
    rw [List.foldl_cons, ih]
    cases nd with
    | rawNode t v =>
      rw [show step1 g (AstNode.rawNode t v) = g from rfl, ooSpec_cons_raw]
    | targetNode r =>
      by_cases hp : r.name = phonyName
      · simp only [step1, if_pos hp]
        constructor
        · rintro (h | hs)
          · exact Or.inl h
          · exact Or.inr (ooSpec_cons_target.mpr (Or.inr hs))
        · rintro (h | hs)
          · exact Or.inl h
          · rcases ooSpec_cons_target.mp hs with ⟨hph, _⟩ | hs2
            · exact absurd hp hph
            · exact Or.inr hs2
      · have hstep : x ∈ (step1 g (AstNode.targetNode r)).oo ↔
            x ∈ g.oo ∨ x ∈ r.orderDeps := by
          simp only [step1, if_neg hp]
          show x ∈ r.orderDeps.foldl (fun s k => insSet k s) g.oo ↔ _
          rw [mem_foldInsSet]
        rw [hstep, ooSpec_cons_target]
        constructor
        · rintro ((h | hx) | hs)
          · exact Or.inl h
          · exact Or.inr (Or.inl ⟨hp, hx⟩)
          · exact Or.inr (Or.inr hs)
        · rintro (h | (⟨_, hx⟩ | hs))
          · exact Or.inl (Or.inl h)
          · exact Or.inl (Or.inr hx)
          · exact Or.inr hs

/-- C7: for every AST, every name occurring as an order-only dependency of
a non-phony target has an entry in the influences map; membership in an
influence set arises exactly from the required dependencies of non-phony
targets, so the depending target is never added through the order-only
channel; and the order-only set holds exactly the union of the order-only
dependency names over all non-phony targets. -/
theorem c7_order_only : ∀ ast : List AstNode,
    (∀ r : TargetRec, AstNode.targetNode r ∈ ast → r.name ≠ phonyName →
      ∀ d ∈ r.orderDeps, (alookup (buildMaps ast).infl d).isSome) ∧
    (∀ d x : Str, x ∈ getD (buildMaps ast).infl d ↔ inflSpec ast d x) ∧
    (∀ x : Str, x ∈ (buildMaps ast).oo ↔ ooSpec ast x) := by
  intro ast
  refine ⟨?_, ?_, ?_⟩
  · intro r hr hph d hd
    rw [show buildMaps ast = ast.foldl step1 ⟨[], [], []⟩ from rfl, isSome_infl_foldl]
    exact Or.inr ⟨r, hr, hph, Or.inr (Or.inr hd)⟩
  · intro d x
    rw [show buildMaps ast = ast.foldl step1 ⟨[], [], []⟩ from rfl, mem_infl_foldl]
    simp [getD, alookup]
  · intro x
    rw [show buildMaps ast = ast.foldl step1 ⟨[], [], []⟩ from rfl, mem_oo_foldl]
    simp

/-- Witness for C7 at a one-record AST with an order-only dependency. -/
theorem c7_witness : (alookup (buildMaps c7Ast).infl (str "c")).isSome :=
  (c7_order_only c7Ast).1 ⟨str "t", [str "b"], [str "c"], [], []⟩ (by decide) (by decide)
    (str "c") (by decide)

end MakeProfiler
